import Mathlib

/-!
# Verification of the xarb price-monitoring core

Shallow embedding of the xarb repository's monitoring pipeline:

* `internal/application/usecase/monitor/state.go` — the price board
  (`State.Apply`, `State.Snapshot`, `State.DeltaBandFor`, `State.DeltaBand`);
* `internal/application/usecase/monitor/service.go` — the band state machine
  of `Service.Run`;
* the `CommonSymbolConverter` (`Symbol2Coin` / `Coin2Symbol`);
* `config.go` (`ApplyDefaults` / `ValidateConfig` / `NormalizeSymbols`);
* the wire-item → `Tick` step of the Binance and OKX feed adapters.

Strings are `List Char`.  `strings.ToUpper` / `strings.TrimSpace` are modelled
on the ASCII fragment exercised by this code base (coin tokens, exchange tags,
decimal price strings).  `float64` prices are modelled by `ℚ`;
`strconv.ParseFloat` is modelled on its plain decimal fragment
(optional sign, digits, optional fraction) — every price string the
repository's documentation and tests use falls in this fragment, and the
claims under verification depend only on success/failure and on the parsed
value of such strings.  Go maps are modelled as association lists in
insertion order; where the source iterates a Go map (whose order is
unspecified), the model's insertion order realises one admissible iteration
order, and this is noted at the definition.
-/

namespace Xarb

/-- Strings as lists of characters. -/
abbrev Str := List Char

/-- ASCII whitespace recognised by the model of `strings.TrimSpace`
(space, tab, line feed, carriage return). -/
def isSpaceChar (c : Char) : Bool :=
  c.toNat = 32 ∨ c.toNat = 9 ∨ c.toNat = 10 ∨ c.toNat = 13

/-- Model of `strings.TrimSpace`: drop leading and trailing whitespace. -/
def trimStr (s : Str) : Str :=
  ((s.dropWhile isSpaceChar).reverse.dropWhile isSpaceChar).reverse

/-- Model of `strings.ToUpper` on one character (ASCII fragment):
`a`–`z` map to `A`–`Z`, everything else is unchanged. -/
def upChar (c : Char) : Char :=
  if 97 ≤ c.toNat ∧ c.toNat ≤ 122 then Char.ofNat (c.toNat - 32) else c

/-- Model of `strings.ToUpper` (ASCII fragment). -/
def upperStr (s : Str) : Str := s.map upChar

/-- `strings.ToUpper(strings.TrimSpace(s))` — the normalisation the source
applies to coin tokens and exchange tags. -/
def normStr (s : Str) : Str := upperStr (trimStr s)

/-- Decimal digit test. -/
def isDigitChar (c : Char) : Bool := 48 ≤ c.toNat && c.toNat ≤ 57

/-- Value of a digit string (most significant first). -/
def digitsVal (s : Str) : Nat := s.foldl (fun a c => a * 10 + (c.toNat - 48)) 0

/-- Unsigned part of the decimal-fragment model of `strconv.ParseFloat`:
`digits`, `digits.digits`, `digits.` or `.digits`. -/
def parseUnsigned (s : Str) : Option ℚ :=
  let intPart := s.takeWhile isDigitChar
  let rest := s.dropWhile isDigitChar
  match rest with
  | [] => if intPart = [] then none else some (digitsVal intPart)
  | '.' :: frac =>
      if frac.all isDigitChar ∧ (intPart ≠ [] ∨ frac ≠ []) then
        some ((digitsVal intPart : ℚ) + (digitsVal frac : ℚ) / ((10 : ℚ) ^ frac.length))
      else none
  | _ => none

/-- Model of `strconv.ParseFloat(s, 64)` on its plain decimal fragment;
`none` models a parse error. -/
def parseFloat (s : Str) : Option ℚ :=
  match s with
  | [] => none
  | '+' :: rest => parseUnsigned rest
  | '-' :: rest => (parseUnsigned rest).map Neg.neg
  | _ => parseUnsigned s

/-- Model of `strconv.ParseInt(s, 10, 64)` (sign and digits only). -/
def parseIntStr (s : Str) : Option Int :=
  let core : Str → Option Int := fun t =>
    if t ≠ [] ∧ t.all isDigitChar then some (digitsVal t) else none
  match s with
  | [] => none
  | '+' :: rest => core rest
  | '-' :: rest => (core rest).map Neg.neg
  | _ => core s

/-! ## Association lists

Go maps are modelled as association lists.  `aset` updates in place when the
key is present and appends otherwise, so the list order is first-insertion
order — the model's realisation of a Go map iteration order (Go leaves the
iteration order unspecified; any fact below that depends on it is flagged at
the theorem). -/

/-- Lookup in an association list (Go `m[k]` returning `nil` when absent). -/
def aget {α : Type} (m : List (Str × α)) (k : Str) : Option α :=
  match m with
  | [] => none
  | (k', v) :: rest => if k' = k then some v else aget rest k

/-- Insert/update in an association list (Go `m[k] = v`). -/
def aset {α : Type} (m : List (Str × α)) (k : Str) (v : α) : List (Str × α) :=
  match m with
  | [] => [(k, v)]
  | (k', v') :: rest => if k' = k then (k, v) :: rest else (k', v') :: aset rest k v

/-! ## Data model (`port.Tick`, `monitor.pxState`, `monitor.State`) -/

/-- `port.Tick`: one price event (`float64` modelled by `ℚ`). -/
structure Tick where
  exchange : Str
  symbol   : Str
  priceStr : Str
  priceNum : ℚ
  ts       : Int
deriving DecidableEq

/-- `monitor.Dir` values (`DirSame = 0`, `DirUp = +1`, `DirDown = -1`). -/
def DirSame : Int := 0

/-- `monitor.DirUp`. -/
def DirUp : Int := 1

/-- `monitor.DirDown`. -/
def DirDown : Int := -1

/-- `monitor.pxState`: one (coin, exchange) price cell. -/
structure PxState where
  str   : Str
  num   : ℚ
  has   : Bool
  dir   : Int
  seen  : Bool
  parse : Bool
deriving DecidableEq

/-- The Go zero value of `pxState` (`&pxState{}`). -/
def initPx : PxState :=
  { str := [], num := 0, has := false, dir := DirSame, seen := false, parse := false }

/-- `monitor.symState`: the per-coin map exchange → price cell. -/
structure SymState where
  exchanges : List (Str × PxState)
deriving DecidableEq

/-- `monitor.State`: the price board. -/
structure BoardState where
  order : List Str
  syms  : List (Str × SymState)
deriving DecidableEq

/-- `monitor.NewState`: one empty row per non-empty normalised coin. -/
def newState (coins : List Str) : BoardState :=
  coins.foldl
    (fun s coin =>
      let u := normStr coin
      if u = [] then s
      else { order := s.order ++ [u], syms := aset s.syms u ⟨[]⟩ })
    { order := [], syms := [] }

/-- The cell-level part of `State.Apply` (source lines 83–117): `ps` is the
located/created cell, `price` the trimmed price string.  Returns the updated
cell and the display-changed bit. -/
def applyCell (ps : PxState) (price : Str) : PxState × Bool :=
  if ps.str = price then ({ ps with seen := true }, false)
  else
    let ps1 : PxState := { ps with str := price, seen := true }
    match parseFloat price with
    | none => ({ ps1 with parse := false, dir := DirSame }, true)
    | some n =>
        if ps1.has = false then
          ({ ps1 with parse := true, has := true, num := n, dir := DirSame }, true)
        else
          ({ ps1 with parse := true,
                      dir := if n > ps1.num then DirUp
                             else if n < ps1.num then DirDown else DirSame,
                      num := n }, true)

/-- `State.Apply`: apply one tick to the board; returns the new board and
whether the display changed. -/
def applyBoard (s : BoardState) (t : Tick) : BoardState × Bool :=
  let ex := normStr t.exchange
  let coin := normStr t.symbol
  let price := trimStr t.priceStr
  if coin = [] ∨ price = [] ∨ ex = [] then (s, false)
  else
    match aget s.syms coin with
    | none => (s, false)
    | some st =>
        let ps := (aget st.exchanges ex).getD initPx
        let r := applyCell ps price
        ({ s with syms := aset s.syms coin ⟨aset st.exchanges ex r.1⟩ }, r.2)

/-! ## Snapshot

`State.Snapshot` (source lines 120–129) copies the top-level map
(`out[k] = *v`) but each copied `symState` *value* still holds the same
`exchanges` map reference, whose values are the same `*pxState` pointers the
live board mutates in place.  The model keeps the copied part — the key set —
as the snapshot's own data, and models a cell read through the snapshot as a
dereference of the live board. -/

/-- The data a Go snapshot owns independently: the copied top-level key set. -/
def snapshotKeys (s : BoardState) : List Str := s.syms.map Prod.fst

/-- Cell lookup on the live board. -/
def boardCell (s : BoardState) (coin ex : Str) : Option PxState :=
  (aget s.syms coin).bind (fun st => aget st.exchanges ex)

/-- Reading cell `(coin, ex)` through a snapshot taken earlier: the snapshot's
top-level map yields a `symState` copy for each captured coin, but its
`exchanges` map aliases the live board, so the read dereferences the current
board state `cur`. -/
def snapObserve (keys : List Str) (cur : BoardState) (coin ex : Str) : Option PxState :=
  if coin ∈ keys then boardCell cur coin ex else none

/-! ## Delta and band (`State.DeltaBandFor`, `State.DeltaBand`) -/

/-- A cell can enter a delta iff it parsed and holds a number
(`ps.parse && ps.has` in the source guards). -/
def cellValid (ps : PxState) : Bool := ps.parse && ps.has

/-- The band switch shared by `DeltaBandFor` and `DeltaBand`
(`d >= threshold → +1`, `d <= -threshold → -1`, else `0`). -/
def bandOf (d threshold : ℚ) : Int :=
  if d ≥ threshold then 1 else if d ≤ -threshold then -1 else 0

/-- `State.DeltaBandFor`: delta and band between two named exchanges.
`none` models `ok = false`. -/
def deltaBandFor (s : BoardState) (symbol ex1 ex2 : Str) (threshold : ℚ) :
    Option (ℚ × Int) :=
  let sym := normStr symbol
  let e1 := normStr ex1
  let e2 := normStr ex2
  if sym = [] ∨ e1 = [] ∨ e2 = [] ∨ threshold ≤ 0 then none
  else
    match aget s.syms sym with
    | none => none
    | some st =>
        match aget st.exchanges e1, aget st.exchanges e2 with
        | some ps1, some ps2 =>
            if (cellValid ps1 && cellValid ps2) = true then
              let d := ps2.num - ps1.num
              some (d, bandOf d threshold)
            else none
        | _, _ => none

/-- `State.DeltaBand` (the variant `Service.Run` calls): uses the *first two*
exchanges of the coin's row.  The source takes the first two keys produced by
a Go map iteration (whose order is unspecified); the model's association list
realises one admissible iteration order — first-insertion order. -/
def deltaBand (s : BoardState) (symbol : Str) (threshold : ℚ) : Option (ℚ × Int) :=
  let sym := normStr symbol
  if sym = [] ∨ threshold ≤ 0 then none
  else
    match aget s.syms sym with
    | none => none
    | some st =>
        match st.exchanges with
        | (_, ps1) :: (_, ps2) :: _ =>
            if (cellValid ps1 && cellValid ps2) = true then
              let d := ps2.num - ps1.num
              some (d, bandOf d threshold)
            else none
        | _ => none

/-- All unordered pairs of a list, each in list order. -/
def allPairs {α : Type} : List α → List (α × α)
  | [] => []
  | x :: xs => xs.map (fun y => (x, y)) ++ allPairs xs

/-- Modelled from the spec (§4.5): the richer detector variant — iterate all
`C(n,2)` exchange pairs whose cells are valid, and classify using the pair
with maximum absolute delta.  `Service.Run` does not implement this variant;
it is defined here, from the spec's words, to compare against `deltaBand`. -/
def deltaBandSpecRich (s : BoardState) (symbol : Str) (threshold : ℚ) :
    Option (ℚ × Int) :=
  let sym := normStr symbol
  if sym = [] ∨ threshold ≤ 0 then none
  else
    match aget s.syms sym with
    | none => none
    | some st =>
        let valid := st.exchanges.filter (fun p => cellValid p.2)
        let deltas := (allPairs valid).map (fun p => p.2.2.num - p.1.2.num)
        match deltas with
        | [] => none
        | d0 :: ds =>
            let best := ds.foldl (fun b d => if |d| > |b| then d else b) d0
            some (best, bandOf best threshold)

/-! ## Band state machine (`Service.Run`, lines 154–194)

Per coin the service keeps `lastBand : map[string]int` and
`seenBand : map[string]bool`; absent keys read as `0` / `false`.  One step
consumes the result of `DeltaBand` and decides whether a signal is emitted. -/

/-- Per-coin band state: `seenBand[coin]` and `lastBand[coin]`. -/
structure BandSt where
  seen : Bool
  last : Int
deriving DecidableEq

/-- A coin with no map entries yet (Go zero values). -/
def initBand : BandSt := { seen := false, last := 0 }

/-- One iteration of the threshold-crossing block of `Service.Run` for one
coin: input is `DeltaBand`'s result, output the new per-coin state and
whether a signal was emitted. -/
def runStep (st : BandSt) (r : Option (ℚ × Int)) : BandSt × Bool :=
  match r with
  | none => (st, false)
  | some (_, band) =>
      if st.seen = false then ({ seen := true, last := band }, false)
      else if band ≠ st.last ∧ band ≠ 0 then ({ seen := true, last := band }, true)
      else ({ st with last := band }, false)

/-- Run `runStep` over a sequence of detector results, collecting the bands
of the emitted signals in order. -/
def runTrace (st : BandSt) : List (Option (ℚ × Int)) → BandSt × List Int
  | [] => (st, [])
  | r :: rest =>
      let step := runStep st r
      let res := runTrace step.1 rest
      (res.1, (if step.2 = true then [(r.getD (0, 0)).2] else []) ++ res.2)

/-- Iterated cell update: apply a sequence of (trimmed) price strings to one
cell — the life of one `pxState` under `State.Apply`. -/
def applyCellSeq (c : PxState) (prices : List Str) : PxState :=
  prices.foldl (fun c p => (applyCell c p).1) c

/-! ## Symbol converter (`CommonSymbolConverter`) -/

/-- `strings.ReplaceAll(s, pat, "")`: remove all (leftmost, non-overlapping)
occurrences of `pat`.  With an empty pattern Go inserts the empty replacement
between characters, returning `s`; the model returns `s` likewise. -/
def replaceAll (s pat : Str) : Str :=
  match s with
  | [] => []
  | c :: rest =>
      if pat ≠ [] ∧ pat.isPrefixOf (c :: rest) then
        replaceAll (List.drop (pat.length - 1) rest) pat
      else c :: replaceAll rest pat
termination_by s.length
decreasing_by
  · simp only [List.length_cons, List.length_drop]
    omega
  · simp only [List.length_cons]
    omega

/-- `CommonSymbolConverter`: holds the normalised quote suffix. -/
structure CommonSymbolConverter where
  suffix : Str
deriving DecidableEq

/-- `NewCommonSymbolConverter`: normalises the suffix at construction. -/
def newCommonSymbolConverter (suffix : Str) : CommonSymbolConverter :=
  ⟨normStr suffix⟩

/-- `CommonSymbolConverter.Symbol2Coin`: uppercase and trim, then remove all
occurrences of the suffix; empty input maps to empty output. -/
def symbol2Coin (c : CommonSymbolConverter) (symbol : Str) : Str :=
  let sym := normStr symbol
  if sym = [] then [] else replaceAll sym c.suffix

/-- `CommonSymbolConverter.Coin2Symbol`: uppercase and trim, return unchanged
if the suffix is already present, else append it; empty input maps to empty
output. -/
def coin2Symbol (c : CommonSymbolConverter) (coin : Str) : Str :=
  let u := normStr coin
  if u = [] then []
  else if c.suffix.isSuffixOf u then u
  else u ++ c.suffix

/-! ## Configuration (`config.go`) -/

/-- The decoded `Config` (fields the load pipeline reads). -/
structure Config where
  printEveryMin  : Int
  symbols        : List Str
  deltaThreshold : ℚ
  binanceEnabled : Bool
  binanceWsURL   : Str
  bybitEnabled   : Bool
  bybitWsURL     : Str
deriving DecidableEq

/-- `ApplyDefaults`: substitute `5` / `5.0` for non-positive period and
threshold. -/
def applyDefaults (cfg : Config) : Config :=
  let cfg1 := if cfg.printEveryMin ≤ 0 then { cfg with printEveryMin := 5 } else cfg
  if cfg1.deltaThreshold ≤ 0 then { cfg1 with deltaThreshold := 5 } else cfg1

/-- `NormalizeSymbols`, recursion on the input with the `seen` set as an
accumulator: uppercase and trim each token, drop empties, drop tokens whose
normalisation was already seen. -/
def normalizeSymbolsAux (seen : List Str) : List Str → List Str
  | [] => []
  | s :: rest =>
      let u := normStr s
      if u = [] ∨ u ∈ seen then normalizeSymbolsAux seen rest
      else u :: normalizeSymbolsAux (u :: seen) rest

/-- `NormalizeSymbols`. -/
def normalizeSymbols (l : List Str) : List Str := normalizeSymbolsAux [] l

/-- `ValidateConfig`: normalise the symbol list in place, then fail on an
empty list or on an enabled exchange whose WebSocket URL trims to empty. -/
def validateConfig (cfg : Config) : Except Str Config :=
  let syms := normalizeSymbols cfg.symbols
  if syms = [] then Except.error ('s' :: [])
  else if cfg.binanceEnabled = true ∧ trimStr cfg.binanceWsURL = [] then
    Except.error ('b' :: [])
  else if cfg.bybitEnabled = true ∧ trimStr cfg.bybitWsURL = [] then
    Except.error ('y' :: [])
  else Except.ok { cfg with symbols := syms }

/-- The post-decode pipeline of `LoadConfig` (the TOML file decode itself is
outside the model): `ApplyDefaults` then `ValidateConfig`. -/
def loadConfigModel (cfg : Config) : Except Str Config :=
  validateConfig (applyDefaults cfg)

/-! ## Feed adapters: wire item → Tick

Only the pure decode-to-`Tick` step is modelled (Binance
`TickerFeed.run`, lines 139–158, and OKX `PerpetualTickerFeed.run`,
lines 351–375); the network loop around it is not. -/

/-- One decoded Binance `miniTicker` payload (`binanceMiniMsg`). -/
structure BinanceMiniMsg where
  s : Str
  c : Str
deriving DecidableEq

/-- The Binance feed's per-message step: `sym := ToUpper(msg.Data.Symbol)`
(no converter call, no trim), `pxs := TrimSpace(msg.Data.Close)`; skip when
either is empty, else emit the tick with `Symbol: sym`. -/
def binanceMsgToTick (name : Str) (m : BinanceMiniMsg) (nowMs : Int) : Option Tick :=
  let sym := upperStr m.s
  let pxs := trimStr m.c
  if sym = [] ∨ pxs = [] then none
  else some { exchange := name, symbol := sym, priceStr := pxs,
              priceNum := (parseFloat pxs).getD 0, ts := nowMs }

/-- One decoded OKX ticker data item (`okxTickerData`). -/
structure OkxTickerData where
  instId : Str
  last   : Str
  ts     : Str
deriving DecidableEq

/-- The OKX feed's per-item step: `sym := TrimSpace(data.InstID)` (no
converter call), `pxs := TrimSpace(data.Last)`; skip when either is empty,
else emit the tick with `Symbol: sym` and the parsed event timestamp if
present. -/
def okxItemToTick (name : Str) (d : OkxTickerData) (nowMs : Int) : Option Tick :=
  let sym := trimStr d.instId
  let pxs := trimStr d.last
  if sym = [] ∨ pxs = [] then none
  else
    let ts := if d.ts ≠ [] then (parseIntStr d.ts).getD nowMs else nowMs
    some { exchange := name, symbol := sym, priceStr := pxs,
           priceNum := (parseFloat pxs).getD 0, ts := ts }

/-! ## Concrete scenario data used by counterexamples and witnesses -/

/-- String literal to `Str`. -/
def litStr (s : String) : Str := s.data

/-- A tick `(exchange, coin, price)` with integral price and zero timestamp. -/
def mkTick (ex coin px : String) (n : ℚ) : Tick :=
  { exchange := litStr ex, symbol := litStr coin, priceStr := litStr px,
    priceNum := n, ts := 0 }

/-- Board for coin `BTC` after ticks from three exchanges `EA`, `EB`, `EC`
with prices `100`, `101`, `110` (exchanges inserted in alphabetical order, so
every deterministic reading of the Go map iteration that is consistent with
one run is realised by the association list). -/
def board3 : BoardState :=
  (applyBoard
    (applyBoard
      (applyBoard (newState [litStr "BTC"]) (mkTick "EA" "BTC" "100" 100)).1
      (mkTick "EB" "BTC" "101" 101)).1
    (mkTick "EC" "BTC" "110" 110)).1

/-- Board for coin `BTC` after a single tick `(EX1, BTC, "100")`. -/
def board1 : BoardState :=
  (applyBoard (newState [litStr "BTC"]) (mkTick "EX1" "BTC" "100" 100)).1

/-- `board1` after a further tick `(EX1, BTC, "101")`. -/
def board1' : BoardState :=
  (applyBoard board1 (mkTick "EX1" "BTC" "101" 101)).1

/-- The OKX wire item of the claim's example: `BTC-USDT-SWAP` at `50000`. -/
def okxItemBTC : OkxTickerData :=
  { instId := litStr "BTC-USDT-SWAP", last := litStr "50000", ts := [] }

/-- The OKX converter as wired in `okx/register.go`:
`NewCommonSymbolConverter(fmt.Sprintf("-%s-SWAP", quote))` with quote
`USDT`. -/
def okxConverter : CommonSymbolConverter :=
  newCommonSymbolConverter (litStr "-USDT-SWAP")

/-- A literal one-coin board: `BTC` quoted on `EX1` at `100`. -/
def rowEX1 : SymState :=
  ⟨[(litStr "EX1",
     { str := litStr "100", num := 100, has := true, dir := DirSame,
       seen := true, parse := true })]⟩

/-- A literal one-coin board: `BTC` quoted on `EX1` at `100` and `EX2` at
`106`, both cells parsed. -/
def rowEX12 : SymState :=
  ⟨[(litStr "EX1",
     { str := litStr "100", num := 100, has := true, dir := DirSame,
       seen := true, parse := true }),
    (litStr "EX2",
     { str := litStr "106", num := 106, has := true, dir := DirSame,
       seen := true, parse := true })]⟩

/-- Board holding `rowEX1`. -/
def boardLit1 : BoardState := { order := [litStr "BTC"], syms := [(litStr "BTC", rowEX1)] }

/-- Board holding `rowEX12`. -/
def boardLit2 : BoardState := { order := [litStr "BTC"], syms := [(litStr "BTC", rowEX12)] }

/-! # Helper lemmas -/

theorem aget_aset_self {α : Type} (m : List (Str × α)) (k : Str) (v : α) :
    aget (aset m k v) k = some v := by
  induction m with
  | nil => simp [aset, aget]
  | cons hd tl ih =>
      obtain ⟨k', v'⟩ := hd
      by_cases h : k' = k
      · simp [aset, aget, h]
      · simp [aset, aget, h, ih]

theorem aget_aset_ne {α : Type} (m : List (Str × α)) (k k' : Str) (v : α)
    (h : k' ≠ k) : aget (aset m k v) k' = aget m k' := by
  induction m with
  | nil => simp [aset, aget, Ne.symm h]
  | cons hd tl ih =>
      obtain ⟨k₀, v₀⟩ := hd
      by_cases h0 : k₀ = k
      · subst h0
        simp [aset, aget, Ne.symm h]
      · simp [aset, aget, h0, ih]

theorem aset_map_fst {α : Type} (m : List (Str × α)) (k : Str) (v : α)
    (h : aget m k ≠ none) : (aset m k v).map Prod.fst = m.map Prod.fst := by
  induction m with
  | nil => simp [aget] at h
  | cons hd tl ih =>
      obtain ⟨k₀, v₀⟩ := hd
      by_cases h0 : k₀ = k
      · simp [aset, h0]
      · simp only [aget, h0, if_false] at h
        simp [aset, h0, ih h]

theorem applyCell_str (ps : PxState) (p : Str) : ((applyCell ps p).1).str = p := by
  by_cases h : ps.str = p
  · simp [applyCell, h]
  · simp only [applyCell, h, if_false]
    cases parseFloat p with
    | none => rfl
    | some n =>
        by_cases hh : ps.has = false <;> simp [hh]

theorem applyCell_of_eq (ps : PxState) (p : Str) (h : ps.str = p) :
    applyCell ps p = ({ ps with seen := true }, false) := by
  simp [applyCell, h]

theorem applyCell_snd_of_ne (ps : PxState) (p : Str) (h : ps.str ≠ p) :
    (applyCell ps p).2 = true := by
  simp only [applyCell, h, if_false]
  cases parseFloat p with
  | none => rfl
  | some n => by_cases hh : ps.has = false <;> simp [hh]

theorem applyCell_has_mono (ps : PxState) (p : Str) (h : ps.has = true) :
    ((applyCell ps p).1).has = true := by
  by_cases hs : ps.str = p
  · simp [applyCell, hs, h]
  · simp only [applyCell, hs, if_false]
    cases parseFloat p with
    | none => simpa using h
    | some n => simp [h]

theorem applyCell_parse_fail (ps : PxState) (p : Str) (hs : ps.str ≠ p)
    (hp : parseFloat p = none) :
    applyCell ps p =
      ({ ps with str := p, seen := true, parse := false, dir := DirSame }, true) := by
  simp [applyCell, hs, hp]

theorem applyCell_has_iff (ps : PxState) (p : Str)
    (hinv : parseFloat ps.str ≠ none → ps.has = true) :
    (((applyCell ps p).1).has = true ↔ ps.has = true ∨ parseFloat p ≠ none) := by
  by_cases hs : ps.str = p
  · simp only [applyCell_of_eq ps p hs]
    constructor
    · intro h
      exact Or.inl h
    · rintro (h | h)
      · exact h
      · exact hinv (hs ▸ h)
  · simp only [applyCell, hs, if_false]
    cases hp : parseFloat p with
    | none => simp [hp]
    | some n =>
        by_cases hh : ps.has = false <;> simp [hh, hp]

theorem applyCell_inv (ps : PxState) (p : Str)
    (hinv : parseFloat ps.str ≠ none → ps.has = true) :
    parseFloat ((applyCell ps p).1).str ≠ none → ((applyCell ps p).1).has = true := by
  intro hp
  rw [applyCell_str ps p] at hp
  rw [applyCell_has_iff ps p hinv]
  exact Or.inr hp

theorem applyBoard_of_guard (s : BoardState) (t : Tick)
    (h : normStr t.symbol = [] ∨ trimStr t.priceStr = [] ∨ normStr t.exchange = []) :
    applyBoard s t = (s, false) := by
  simp [applyBoard, h]

theorem applyBoard_of_unknown (s : BoardState) (t : Tick)
    (h : aget s.syms (normStr t.symbol) = none) :
    applyBoard s t = (s, false) := by
  by_cases hg : normStr t.symbol = [] ∨ trimStr t.priceStr = [] ∨ normStr t.exchange = []
  · exact applyBoard_of_guard s t hg
  · simp [applyBoard, hg, h]

theorem applyBoard_of_known (s : BoardState) (t : Tick) (st : SymState)
    (hg : ¬(normStr t.symbol = [] ∨ trimStr t.priceStr = [] ∨ normStr t.exchange = []))
    (hget : aget s.syms (normStr t.symbol) = some st) :
    applyBoard s t =
      ({ s with
          syms := aset s.syms (normStr t.symbol)
            ⟨aset st.exchanges (normStr t.exchange)
              ((applyCell ((aget st.exchanges (normStr t.exchange)).getD initPx)
                (trimStr t.priceStr)).1)⟩ },
       (applyCell ((aget st.exchanges (normStr t.exchange)).getD initPx)
          (trimStr t.priceStr)).2) := by
  simp [applyBoard, hg, hget]

theorem applyBoard_keys (s : BoardState) (t : Tick) :
    ((applyBoard s t).1).syms.map Prod.fst = s.syms.map Prod.fst := by
  by_cases hg : normStr t.symbol = [] ∨ trimStr t.priceStr = [] ∨ normStr t.exchange = []
  · rw [applyBoard_of_guard s t hg]
  · cases hget : aget s.syms (normStr t.symbol) with
    | none => rw [applyBoard_of_unknown s t hget]
    | some st =>
        rw [applyBoard_of_known s t st hg hget]
        exact aset_map_fst s.syms (normStr t.symbol) _ (by simp [hget])

theorem char_toNat_ofNat (n : Nat) (h : n < 55296) : (Char.ofNat n).toNat = n := by
  have hv : n.isValidChar := Or.inl h
  rw [Char.ofNat, dif_pos hv]
  simp [Char.ofNatAux, Char.toNat, UInt32.toNat]

theorem upChar_toNat (c : Char) :
    (upChar c).toNat = if 97 ≤ c.toNat ∧ c.toNat ≤ 122 then c.toNat - 32 else c.toNat := by
  unfold upChar
  split
  · next h => rw [char_toNat_ofNat _ (by omega)]
  · rfl

theorem upChar_idem (c : Char) : upChar (upChar c) = upChar c := by
  by_cases h : 97 ≤ c.toNat ∧ c.toNat ≤ 122
  · have ht : (upChar c).toNat = c.toNat - 32 := by rw [upChar_toNat, if_pos h]
    have hc : ¬(97 ≤ (upChar c).toNat ∧ (upChar c).toNat ≤ 122) := by omega
    conv_lhs => rw [upChar]
    rw [if_neg hc]
  · have he : upChar c = c := by unfold upChar; rw [if_neg h]
    rw [he, he]

theorem isSpaceChar_upChar (c : Char) : isSpaceChar (upChar c) = isSpaceChar c := by
  have ht := upChar_toNat c
  simp only [isSpaceChar]
  by_cases h : 97 ≤ c.toNat ∧ c.toNat ≤ 122
  · rw [if_pos h] at ht
    rw [ht]
    simp only [decide_eq_decide]
    omega
  · rw [if_neg h] at ht
    rw [ht]

theorem upperStr_idem (s : Str) : upperStr (upperStr s) = upperStr s := by
  simp only [upperStr, List.map_map]
  exact List.map_congr_left (fun a _ => upChar_idem a)

theorem dropWhile_isSpace_upperStr (s : Str) :
    (upperStr s).dropWhile isSpaceChar = upperStr (s.dropWhile isSpaceChar) := by
  simp only [upperStr, List.dropWhile_map]
  have hf : isSpaceChar ∘ upChar = isSpaceChar := funext isSpaceChar_upChar
  rw [hf]

theorem dropWhile_idem (p : Char → Bool) (l : Str) :
    (l.dropWhile p).dropWhile p = l.dropWhile p := by
  induction l with
  | nil => rfl
  | cons c rest ih =>
      rw [List.dropWhile_cons]
      by_cases h : p c
      · rw [if_pos h]
        exact ih
      · rw [if_neg h, List.dropWhile_cons, if_neg h]

theorem dropWhile_fix_of_prefix (p : Char → Bool) (w l : Str)
    (hp : w <+: l) (hl : l.dropWhile p = l) : w.dropWhile p = w := by
  cases w with
  | nil => rfl
  | cons c w' =>
      obtain ⟨rest, hrest⟩ := hp
      subst hrest
      rw [List.cons_append] at hl
      rw [List.dropWhile_cons] at hl ⊢
      by_cases h : p c
      · rw [if_pos h] at hl
        have := (List.dropWhile_suffix (l := w' ++ rest) p).length_le
        rw [hl] at this
        simp at this
      · rw [if_neg h]

theorem trimStr_dropWhile (s : Str) :
    (trimStr s).dropWhile isSpaceChar = trimStr s := by
  have h1 : (trimStr s).reverse = (s.dropWhile isSpaceChar).reverse.dropWhile isSpaceChar := by
    simp [trimStr]
  have hpre : trimStr s <+: s.dropWhile isSpaceChar := by
    rw [← List.reverse_suffix, h1]
    exact List.dropWhile_suffix isSpaceChar
  exact dropWhile_fix_of_prefix _ _ _ hpre (dropWhile_idem _ s)

theorem trimStr_reverse_dropWhile (s : Str) :
    (trimStr s).reverse.dropWhile isSpaceChar = (trimStr s).reverse := by
  have h1 : (trimStr s).reverse = (s.dropWhile isSpaceChar).reverse.dropWhile isSpaceChar := by
    simp [trimStr]
  rw [h1]
  exact dropWhile_idem _ _

theorem normStr_dropWhile (s : Str) :
    (normStr s).dropWhile isSpaceChar = normStr s := by
  rw [normStr, dropWhile_isSpace_upperStr, trimStr_dropWhile]

theorem normStr_reverse_dropWhile (s : Str) :
    (normStr s).reverse.dropWhile isSpaceChar = (normStr s).reverse := by
  have h : (normStr s).reverse = upperStr (trimStr s).reverse := by
    simp [normStr, upperStr, List.map_reverse]
  rw [h, dropWhile_isSpace_upperStr, trimStr_reverse_dropWhile]

theorem upperStr_normStr (s : Str) : upperStr (normStr s) = normStr s := by
  rw [normStr, upperStr_idem]

theorem trimStr_fix_of_parts (l : Str) (h1 : l.dropWhile isSpaceChar = l)
    (h2 : l.reverse.dropWhile isSpaceChar = l.reverse) : trimStr l = l := by
  rw [trimStr, h1, h2, List.reverse_reverse]

theorem trimStr_normStr (s : Str) : trimStr (normStr s) = normStr s :=
  trimStr_fix_of_parts _ (normStr_dropWhile s) (normStr_reverse_dropWhile s)

theorem normStr_idem (s : Str) : normStr (normStr s) = normStr s := by
  rw [normStr, trimStr_normStr]
  exact upperStr_normStr s

theorem dropWhile_append_of_ne_nil (p : Char → Bool) (a b : Str)
    (ha : a.dropWhile p = a) (hne : a ≠ []) :
    (a ++ b).dropWhile p = a ++ b := by
  cases a with
  | nil => exact absurd rfl hne
  | cons c a' =>
      rw [List.dropWhile_cons] at ha
      by_cases h : p c
      · rw [if_pos h] at ha
        have := (List.dropWhile_suffix (l := a') p).length_le
        rw [ha] at this
        simp at this
      · rw [List.cons_append, List.dropWhile_cons, if_neg h]

theorem trimStr_append_norm (x y : Str) (hx : normStr x ≠ []) (hy : normStr y ≠ []) :
    trimStr (normStr x ++ normStr y) = normStr x ++ normStr y := by
  apply trimStr_fix_of_parts
  · exact dropWhile_append_of_ne_nil _ _ _ (normStr_dropWhile x) hx
  · rw [List.reverse_append]
    apply dropWhile_append_of_ne_nil _ _ _ (normStr_reverse_dropWhile y)
    simpa using hy

theorem normStr_append_norm (x y : Str) (hx : normStr x ≠ []) (hy : normStr y ≠ []) :
    normStr (normStr x ++ normStr y) = normStr x ++ normStr y := by
  rw [normStr, trimStr_append_norm x y hx hy, upperStr, List.map_append]
  rw [← upperStr, ← upperStr, upperStr_normStr, upperStr_normStr]

theorem replaceAll_nil (p : Str) : replaceAll [] p = [] := by
  simp [replaceAll]

theorem replaceAll_append_cancel (u p : Str) (hp : p ≠ [])
    (H : ∀ i, i < u.length → ¬ p <+: List.drop i (u ++ p)) :
    replaceAll (u ++ p) p = u := by
  induction u with
  | nil =>
      simp only [List.nil_append]
      cases p with
      | nil => exact absurd rfl hp
      | cons c rest =>
          rw [replaceAll]
          rw [if_pos ⟨by simp, List.isPrefixOf_iff_prefix.mpr (List.prefix_refl _)⟩]
          simp [replaceAll_nil]
  | cons c u' ih =>
      have h0 : ¬ p <+: (c :: u' ++ p) := by
        have := H 0 (by simp)
        simpa using this
      rw [List.cons_append, replaceAll]
      rw [if_neg (by
        rw [List.isPrefixOf_iff_prefix]
        intro hcontra
        exact h0 (by simpa using hcontra.2))]
      rw [ih (fun i hi => by
        have := H (i + 1) (by simpa using Nat.succ_lt_succ hi)
        simpa using this)]

theorem not_suffix_of_no_interior_match (u p : Str) (hp : p ≠ [])
    (H : ∀ i, i < u.length → ¬ p <+: List.drop i (u ++ p)) : ¬ p <:+ u := by
  rintro ⟨w, hw⟩
  have hlen : w.length < u.length := by
    have : u.length = w.length + p.length := by rw [← hw]; simp
    have hppos : 0 < p.length := List.length_pos.mpr hp
    omega
  apply H w.length hlen
  have hdrop : List.drop w.length (u ++ p) = p ++ p := by
    rw [← hw, List.append_assoc, List.drop_left]
  rw [hdrop]
  exact List.prefix_append p p

theorem nsAux_nodup_notin (l : List Str) :
    ∀ seen, (normalizeSymbolsAux seen l).Nodup ∧
      ∀ x ∈ normalizeSymbolsAux seen l, x ∉ seen := by
  induction l with
  | nil => intro seen; simp [normalizeSymbolsAux]
  | cons s rest ih =>
      intro seen
      by_cases h : normStr s = [] ∨ normStr s ∈ seen
      · simp only [normalizeSymbolsAux, if_pos h]
        exact ih seen
      · simp only [normalizeSymbolsAux, if_neg h]
        push_neg at h
        refine ⟨List.nodup_cons.mpr ⟨?_, (ih _).1⟩, ?_⟩
        · intro hmem
          exact ((ih _).2 _ hmem) (List.mem_cons_self _ _)
        · intro x hx
          rcases List.mem_cons.mp hx with hx | hx
          · exact hx ▸ h.2
          · intro hseen
            exact ((ih _).2 _ hx) (List.mem_cons_of_mem _ hseen)

theorem nsAux_sublist (l : List Str) :
    ∀ seen, List.Sublist (normalizeSymbolsAux seen l)
      ((l.map normStr).filter (fun u => !u.isEmpty)) := by
  induction l with
  | nil => intro seen; simp [normalizeSymbolsAux]
  | cons s rest ih =>
      intro seen
      by_cases h : normStr s = [] ∨ normStr s ∈ seen
      · simp only [normalizeSymbolsAux, if_pos h]
        by_cases he : normStr s = []
        · simpa [he] using ih seen
        · have hk : (!(normStr s).isEmpty) = true := by
            simp [List.isEmpty_iff, he]
          simp only [List.map_cons, List.filter_cons, hk, if_pos]
          exact (ih seen).cons _
      · simp only [normalizeSymbolsAux, if_neg h]
        push_neg at h
        have hk : (!(normStr s).isEmpty) = true := by
          simp [List.isEmpty_iff, h.1]
        simp only [List.map_cons, List.filter_cons, hk, if_pos]
        exact (ih _).cons₂ _

theorem nsAux_mem (l : List Str) :
    ∀ seen x, x ∈ normalizeSymbolsAux seen l ↔
      (x ∈ (l.map normStr).filter (fun u => !u.isEmpty) ∧ x ∉ seen) := by
  induction l with
  | nil => intro seen x; simp [normalizeSymbolsAux]
  | cons s rest ih =>
      intro seen x
      by_cases he : normStr s = []
      · simp only [normalizeSymbolsAux, if_pos (Or.inl he), List.map_cons,
          List.filter_cons]
        have hk : (!(normStr s).isEmpty) = false := by simp [he]
        simp only [hk, Bool.false_eq_true, if_false]
        exact ih seen x
      · have hk : (!(normStr s).isEmpty) = true := by simp [List.isEmpty_iff, he]
        by_cases hs : normStr s ∈ seen
        · simp only [normalizeSymbolsAux, if_pos (Or.inr hs), List.map_cons,
            List.filter_cons, hk, if_pos]
          rw [ih seen x]
          constructor
          · rintro ⟨hm, hn⟩
            exact ⟨List.mem_cons_of_mem _ hm, hn⟩
          · rintro ⟨hm, hn⟩
            rcases List.mem_cons.mp hm with hx | hx
            · exact absurd (hx ▸ hs) hn
            · exact ⟨hx, hn⟩
        · simp only [normalizeSymbolsAux, if_neg (by
            push_neg
            exact ⟨he, hs⟩ : ¬(normStr s = [] ∨ normStr s ∈ seen)), List.map_cons,
            List.filter_cons, hk, if_pos]
          constructor
          · intro hx
            rcases List.mem_cons.mp hx with hx | hx
            · exact ⟨hx ▸ List.mem_cons_self _ _, hx ▸ hs⟩
            · have := (ih _ x).mp hx
              exact ⟨List.mem_cons_of_mem _ this.1,
                fun hc => this.2 (List.mem_cons_of_mem _ hc)⟩
          · rintro ⟨hm, hn⟩
            rcases List.mem_cons.mp hm with hx | hx
            · exact hx ▸ List.mem_cons_self _ _
            · by_cases hxu : x = normStr s
              · exact hxu ▸ List.mem_cons_self _ _
              · exact List.mem_cons_of_mem _ ((ih _ x).mpr
                  ⟨hx, by simp [hxu, hn]⟩)

theorem runStep_emit_nonzero (st : BandSt) (r : Option (ℚ × Int))
    (h : (runStep st r).2 = true) :
    st.seen = true ∧ ∃ d b, r = some (d, b) ∧ b ≠ st.last ∧ b ≠ 0 := by
  cases r with
  | none => simp [runStep] at h
  | some pr =>
      obtain ⟨d, b⟩ := pr
      by_cases hs : st.seen = false
      · simp [runStep, hs] at h
      · by_cases hc : b ≠ st.last ∧ b ≠ 0
        · exact ⟨Bool.not_eq_false _ ▸ hs, d, b, rfl, hc⟩
        · simp [runStep, hs, hc] at h

theorem runTrace_no_zero (rs : List (Option (ℚ × Int))) :
    ∀ st, (0 : Int) ∉ (runTrace st rs).2 := by
  induction rs with
  | nil => intro st; simp [runTrace]
  | cons r rest ih =>
      intro st
      simp only [runTrace, List.mem_append]
      rintro (h0 | h0)
      · by_cases he : (runStep st r).2 = true
        · obtain ⟨-, d, b, hr, -, hb⟩ := runStep_emit_nonzero st r he
          rw [if_pos he] at h0
          subst hr
          simp at h0
          exact hb h0.symm
        · rw [if_neg he] at h0
          simp at h0
      · exact ih _ h0

theorem applyBoard_second_false (s : BoardState) (t : Tick) :
    (applyBoard (applyBoard s t).1 t).2 = false := by
  by_cases hg : normStr t.symbol = [] ∨ trimStr t.priceStr = [] ∨ normStr t.exchange = []
  · rw [applyBoard_of_guard s t hg, applyBoard_of_guard s t hg]
  · cases hget : aget s.syms (normStr t.symbol) with
    | none =>
        rw [applyBoard_of_unknown s t hget, applyBoard_of_unknown s t hget]
    | some st =>
        rw [applyBoard_of_known s t st hg hget]
        rw [applyBoard_of_known _ t _ hg (by rw [aget_aset_self])]
        rw [aget_aset_self]
        simp only [Option.getD_some]
        exact (applyCell_of_eq _ _ (applyCell_str _ _)) ▸ rfl

/-! # Claims -/

theorem applyCellSeq_has_iff (prices : List Str) :
    ∀ c : PxState, (parseFloat c.str ≠ none → c.has = true) →
      ((applyCellSeq c prices).has = true ↔
        c.has = true ∨ ∃ p ∈ prices, parseFloat p ≠ none) := by
  induction prices with
  | nil => intro c hinv; simp [applyCellSeq]
  | cons p rest ih =>
      intro c hinv
      have hstep : applyCellSeq c (p :: rest) = applyCellSeq ((applyCell c p).1) rest := by
        simp [applyCellSeq]
      rw [hstep, ih _ (applyCell_inv c p hinv), applyCell_has_iff c p hinv]
      constructor
      · rintro ((h | h) | h)
        · exact Or.inl h
        · exact Or.inr ⟨p, List.mem_cons_self _ _, h⟩
        · obtain ⟨q, hq, hq2⟩ := h
          exact Or.inr ⟨q, List.mem_cons_of_mem _ hq, hq2⟩
      · rintro (h | h)
        · exact Or.inl (Or.inl h)
        · obtain ⟨q, hq, hq2⟩ := h
          rcases List.mem_cons.mp hq with hq | hq
          · exact Or.inl (Or.inr (hq ▸ hq2))
          · exact Or.inr ⟨q, hq, hq2⟩

/-- C10: for every tick whose exchange tag, symbol, or price string is empty
after trimming whitespace, `State.Apply` returns `false` and leaves the whole
board unchanged — no cell is created or modified, not even `seen` or `str`. -/
theorem C10_empty_field_tick_rejected (s : BoardState) (t : Tick)
    (h : trimStr t.exchange = [] ∨ trimStr t.symbol = [] ∨ trimStr t.priceStr = []) :
    applyBoard s t = (s, false) := by
  apply applyBoard_of_guard
  rcases h with h | h | h
  · exact Or.inr (Or.inr (by rw [normStr, h]; rfl))
  · exact Or.inl (by rw [normStr, h]; rfl)
  · exact Or.inr (Or.inl h)

/-- Witness for C10: a tick whose price string is whitespace-only is rejected
and the board value is returned unchanged. -/
theorem C10_empty_field_tick_rejected_witness :
    (trimStr (mkTick "EX1" "BTC" " " 0).priceStr = [] ∨ False) ∧
    applyBoard boardLit1 (mkTick "EX1" "BTC" " " 0) = (boardLit1, false) :=
  ⟨Or.inl (by decide),
   C10_empty_field_tick_rejected boardLit1 (mkTick "EX1" "BTC" " " 0)
     (Or.inr (Or.inr (by decide)))⟩

/-- C5 counterexample: the claim says *every* tick applied twice returns
`true` then `false`; but a tick for a coin that is not on the board (here
`ETH` on a board configured for `BTC` only) already returns `false` on the
first application. -/
theorem C5_counterexample_first_apply_not_true :
    (applyBoard (newState [litStr "BTC"]) (mkTick "EX1" "ETH" "1" 1)).2 = false := by
  simp [applyBoard, newState, mkTick, litStr, aget, aset, normStr, upperStr, upChar,
    trimStr, isSpaceChar]

/-- C5 (amended): the second of two successive applies of the same tick
always returns `false`; the first returns `true` provided the tick's trimmed
fields are non-empty, its coin is configured, and its trimmed price differs
from the string stored in its cell; and an apply whose trimmed price equals
the stored cell string returns `false` and leaves the cell's direction
unchanged. -/
theorem C5_apply_display_change_bit (s : BoardState) (t : Tick) :
    ((applyBoard (applyBoard s t).1 t).2 = false) ∧
    (∀ st : SymState, normStr t.symbol ≠ [] → trimStr t.priceStr ≠ [] →
      normStr t.exchange ≠ [] →
      aget s.syms (normStr t.symbol) = some st →
      ((aget st.exchanges (normStr t.exchange)).getD initPx).str ≠ trimStr t.priceStr →
      (applyBoard s t).2 = true) ∧
    (∀ (st : SymState) (ps : PxState),
      aget s.syms (normStr t.symbol) = some st →
      aget st.exchanges (normStr t.exchange) = some ps →
      ps.str = trimStr t.priceStr →
      (applyBoard s t).2 = false ∧
      (boardCell ((applyBoard s t).1) (normStr t.symbol) (normStr t.exchange)).map
          PxState.dir = some ps.dir) := by
  refine ⟨applyBoard_second_false s t, ?_, ?_⟩
  · intro st h1 h2 h3 hget hne
    have hg : ¬(normStr t.symbol = [] ∨ trimStr t.priceStr = [] ∨ normStr t.exchange = []) := by
      push_neg
      exact ⟨h1, h2, h3⟩
    rw [applyBoard_of_known s t st hg hget]
    exact applyCell_snd_of_ne _ _ hne
  · intro st ps hget hcell hstr
    by_cases hg : normStr t.symbol = [] ∨ trimStr t.priceStr = [] ∨ normStr t.exchange = []
    · rw [applyBoard_of_guard s t hg]
      exact ⟨rfl, by simp [boardCell, hget, hcell]⟩
    · rw [applyBoard_of_known s t st hg hget]
      constructor
      · simp only [hcell, Option.getD_some]
        rw [applyCell_of_eq ps _ hstr]
      · simp only [boardCell, hcell, Option.getD_some, aget_aset_self, Option.bind_eq_bind,
          Option.some_bind, aget_aset_self]
        rw [applyCell_of_eq ps _ hstr]
        rfl

/-- Witness for C5: on the literal board, a tick repeating the stored price
string `100` returns `false` and keeps the cell direction. -/
theorem C5_apply_display_change_bit_witness :
    (aget boardLit1.syms (normStr (mkTick "EX1" "BTC" "100" 100).symbol) = some rowEX1) ∧
    ((applyBoard boardLit1 (mkTick "EX1" "BTC" "100" 100)).2 = false ∧
      (boardCell ((applyBoard boardLit1 (mkTick "EX1" "BTC" "100" 100)).1)
          (normStr (mkTick "EX1" "BTC" "100" 100).symbol)
          (normStr (mkTick "EX1" "BTC" "100" 100).exchange)).map PxState.dir
        = some (rowEX1.exchanges.head (by decide)).2.dir) := by
  constructor
  · decide
  · exact (C5_apply_display_change_bit boardLit1 (mkTick "EX1" "BTC" "100" 100)).2.2
      rowEX1 (rowEX1.exchanges.head (by decide)).2 (by decide) (by decide) (by decide)

/-- C3: the per-coin band state machine of `Service.Run`: a `none` detector
result changes nothing; the first valid delta establishes the baseline
(`last := band`, `seen := true`) without a signal; once established, a signal
is emitted exactly when the new band differs from the last band and is
non-zero, and `last` is always updated to the new band (in particular a
change to band `0` emits nothing but records `0`); consequently no signal is
ever emitted while unestablished or with band `0`, and along any run from
startup no emitted signal carries band `0`. -/
theorem C3_band_machine (st : BandSt) (d : ℚ) (band : Int) :
    (runStep st none = (st, false)) ∧
    (st.seen = false → runStep st (some (d, band)) = ({ seen := true, last := band }, false)) ∧
    (st.seen = true →
      (runStep st (some (d, band))).1 = { seen := true, last := band } ∧
      ((runStep st (some (d, band))).2 = true ↔ band ≠ st.last ∧ band ≠ 0)) ∧
    (∀ r, (runStep st r).2 = true →
      st.seen = true ∧ ∃ d' b, r = some (d', b) ∧ b ≠ st.last ∧ b ≠ 0) ∧
    (∀ rs, (0 : Int) ∉ (runTrace initBand rs).2) := by
  refine ⟨rfl, ?_, ?_, runStep_emit_nonzero st, fun rs => runTrace_no_zero rs initBand⟩
  · intro hs
    simp [runStep, hs]
  · intro hs
    obtain ⟨seen, last⟩ := st
    simp only at hs
    subst hs
    by_cases hc : band ≠ last ∧ band ≠ 0
    · simp [runStep, hc]
    · simp [runStep, hc]

/-- Witness for C3: concrete runs of the band machine — baseline
establishment on the first valid delta, then an emission on entering band
`+1` from band `0`. -/
theorem C3_band_machine_witness :
    runStep initBand (some (6, 1)) = ({ seen := true, last := 1 }, false) ∧
    (runStep { seen := true, last := 0 } (some (6, 1)) : BandSt × Bool).1
      = { seen := true, last := 1 } ∧
    ((runStep { seen := true, last := 0 } (some (6, 1))).2 = true ↔ (1 : Int) ≠ 0 ∧ (1 : Int) ≠ 0) := by
  refine ⟨(C3_band_machine initBand 6 1).2.1 rfl, ?_, ?_⟩
  · exact ((C3_band_machine { seen := true, last := 0 } 6 1).2.2.1 rfl).1
  · exact ((C3_band_machine { seen := true, last := 0 } 6 1).2.2.1 rfl).2

/-- C4: when both cells of a pair hold a parsed numeric price, the delta
`d = price(ex2) − price(ex1)` is classified with threshold `T > 0` as band
`+1` iff `d ≥ T`, `−1` iff `d ≤ −T`, `0` otherwise — the boundary values
`d = T` and `d = −T` land in `+1` and `−1` respectively; when either cell is
missing or lacks a parsed numeric price, `DeltaBandFor` returns not-ok; and a
coin row with fewer than two exchange cells makes `DeltaBand` return not-ok,
so the band machine emits nothing for it. -/
theorem C4_delta_band_classification (s : BoardState) (symbol e1 e2 : Str) (T : ℚ)
    (hT : 0 < T) (hsym : normStr symbol ≠ []) (he1 : normStr e1 ≠ [])
    (he2 : normStr e2 ≠ []) :
    (∀ st ps1 ps2, aget s.syms (normStr symbol) = some st →
      aget st.exchanges (normStr e1) = some ps1 →
      aget st.exchanges (normStr e2) = some ps2 →
      cellValid ps1 = true → cellValid ps2 = true →
      deltaBandFor s symbol e1 e2 T
          = some (ps2.num - ps1.num, bandOf (ps2.num - ps1.num) T) ∧
        (ps2.num - ps1.num ≥ T → bandOf (ps2.num - ps1.num) T = 1) ∧
        (ps2.num - ps1.num ≤ -T → bandOf (ps2.num - ps1.num) T = -1) ∧
        (ps2.num - ps1.num = T → bandOf (ps2.num - ps1.num) T = 1) ∧
        (ps2.num - ps1.num = -T → bandOf (ps2.num - ps1.num) T = -1) ∧
        (-T < ps2.num - ps1.num → ps2.num - ps1.num < T →
          bandOf (ps2.num - ps1.num) T = 0)) ∧
    ((∀ st ps1 ps2, aget s.syms (normStr symbol) = some st →
      aget st.exchanges (normStr e1) = some ps1 →
      aget st.exchanges (normStr e2) = some ps2 →
      ¬(cellValid ps1 = true ∧ cellValid ps2 = true)) →
      deltaBandFor s symbol e1 e2 T = none) ∧
    (∀ st, aget s.syms (normStr symbol) = some st → st.exchanges.length < 2 →
      deltaBand s symbol T = none ∧
      ∀ bst : BandSt, runStep bst (deltaBand s symbol T) = (bst, false)) := by
  have hguard : ¬(normStr symbol = [] ∨ normStr e1 = [] ∨ normStr e2 = [] ∨ T ≤ 0) := by
    push_neg
    exact ⟨hsym, he1, he2, hT⟩
  refine ⟨?_, ?_, ?_⟩
  · intro st ps1 ps2 hst h1 h2 hv1 hv2
    refine ⟨?_, ?_, ?_, ?_, ?_, ?_⟩
    · simp [deltaBandFor, hguard, hst, h1, h2, hv1, hv2]
    · intro h
      rw [bandOf, if_pos h]
    · intro h
      rw [bandOf, if_neg (by linarith), if_pos h]
    · intro h
      rw [bandOf, if_pos (le_of_eq h.symm)]
    · intro h
      rw [bandOf, if_neg (by rw [h]; intro hc; linarith), if_pos (le_of_eq h)]
    · intro hl hr
      rw [bandOf, if_neg (by linarith), if_neg (by linarith)]
  · intro hnone
    cases hst : aget s.syms (normStr symbol) with
    | none => simp [deltaBandFor, hguard, hst]
    | some st =>
        cases h1 : aget st.exchanges (normStr e1) with
        | none => simp [deltaBandFor, hguard, hst, h1]
        | some ps1 =>
            cases h2 : aget st.exchanges (normStr e2) with
            | none => simp [deltaBandFor, hguard, hst, h1, h2]
            | some ps2 =>
                have hv := hnone st ps1 ps2 hst h1 h2
                simp only [deltaBandFor, if_neg hguard, hst, h1, h2]
                rw [if_neg (by
                  intro hc
                  rw [Bool.and_eq_true] at hc
                  exact hv hc)]
  · intro st hst hlen
    have hguard2 : ¬(normStr symbol = [] ∨ T ≤ 0) := by
      push_neg
      exact ⟨hsym, hT⟩
    have hnone : deltaBand s symbol T = none := by
      simp only [deltaBand, if_neg hguard2, hst]
      match hx : st.exchanges with
      | [] => rfl
      | [_] => rfl
      | a :: b :: rest =>
          rw [hx] at hlen
          simp at hlen
          omega
    exact ⟨hnone, fun bst => by rw [hnone]; rfl⟩

/-- Witness for C4: on the literal two-exchange board with threshold `5`,
the delta `106 − 100` is computed and classified through `bandOf`, and its
band is `+1`. -/
theorem C4_delta_band_classification_witness :
    (0 : ℚ) < 5 ∧
    deltaBandFor boardLit2 (litStr "BTC") (litStr "EX1") (litStr "EX2") 5
      = some ((106 : ℚ) - 100, bandOf ((106 : ℚ) - 100) 5) ∧
    bandOf ((106 : ℚ) - 100) 5 = 1 := by
  have h := C4_delta_band_classification boardLit2 (litStr "BTC") (litStr "EX1")
    (litStr "EX2") 5 (by norm_num) (by decide) (by decide) (by decide)
  have h1 := h.1 rowEX12
    { str := litStr "100", num := 100, has := true, dir := DirSame, seen := true, parse := true }
    { str := litStr "106", num := 106, has := true, dir := DirSame, seen := true, parse := true }
    (by decide) (by decide) (by decide) (by decide) (by decide)
  exact ⟨by norm_num, h1.1, h1.2.1 (by norm_num)⟩

/-- C1 counterexample: with three exchanges holding numeric prices `100`,
`101`, `110`, the detector actually used by `Service.Run` (`DeltaBand`,
first two exchanges of the row) reports `(delta = 1, band = 0)`, while the
spec's contract (all `C(n,2)` pairs, maximum absolute delta —
`deltaBandSpecRich`) yields `(delta = 10, band = +1)`; the claim that the
evaluation covers all pairs therefore fails on the code.  The board's row
order realises one admissible Go map iteration order (alphabetical insertion
order `EA`, `EB`, `EC`). -/
theorem C1_counterexample_first_two_vs_max_abs :
    deltaBand board3 (litStr "BTC") 5 = some (1, 0) ∧
    deltaBandSpecRich board3 (litStr "BTC") 5 = some (10, 1) ∧
    some ((1 : ℚ), (0 : Int)) ≠ some ((10 : ℚ), (1 : Int)) := by
  refine ⟨?_, ?_, by norm_num⟩ <;>
    simp [board3, mkTick, litStr, deltaBand, deltaBandSpecRich, newState, applyBoard,
      applyCell, aget, aset, normStr, upperStr, upChar, trimStr, isSpaceChar, parseFloat,
      parseUnsigned, digitsVal, isDigitChar, initPx, cellValid, bandOf, allPairs,
      DirSame, DirUp, DirDown] <;>
    norm_num

/-- C1 (amended): `Service.Run` always classifies through the first-two
variant `DeltaBand`, whatever the number of exchanges; this is equivalent to
the spec's all-pairs maximum-absolute-delta contract exactly in the permitted
case — when the coin's row holds exactly two exchange cells. -/
theorem C1_two_exchange_agreement (s : BoardState) (symbol : Str) (T : ℚ)
    (st : SymState) (hs : aget s.syms (normStr symbol) = some st)
    (hlen : st.exchanges.length = 2) :
    deltaBand s symbol T = deltaBandSpecRich s symbol T := by
  by_cases hg : normStr symbol = [] ∨ T ≤ 0
  · simp [deltaBand, deltaBandSpecRich, hg]
  · obtain ⟨a, b, hab⟩ : ∃ a b, st.exchanges = [a, b] := by
      match hx : st.exchanges with
      | [] => rw [hx] at hlen; simp at hlen
      | [x] => rw [hx] at hlen; simp at hlen
      | [x, y] => exact ⟨x, y, rfl⟩
      | x :: y :: z :: rest => rw [hx] at hlen; simp at hlen
    by_cases hva : cellValid a.2 = true <;> by_cases hvb : cellValid b.2 = true <;>
      simp [deltaBand, deltaBandSpecRich, hg, hs, hab, hva, hvb, allPairs]

/-- Witness for C1 (amended): on the literal two-exchange board the two
detector variants agree. -/
theorem C1_two_exchange_agreement_witness :
    aget boardLit2.syms (normStr (litStr "BTC")) = some rowEX12 ∧
    rowEX12.exchanges.length = 2 ∧
    deltaBand boardLit2 (litStr "BTC") 5 = deltaBandSpecRich boardLit2 (litStr "BTC") 5 :=
  ⟨by decide, by decide,
   C1_two_exchange_agreement boardLit2 (litStr "BTC") 5 rowEX12 (by decide) (by decide)⟩

/-- C6: `has_num` is monotone — once a cell has parsed a number it never
loses it (a later parse failure only clears `parsed` and the direction while
keeping `has_num` and the stored number); and over any sequence of applied
price strings, a cell has `has_num = true` exactly when some applied price
string parsed successfully. -/
theorem C6_has_num_iff_some_parse (ps : PxState) (p : Str) (prices : List Str) :
    (ps.has = true → ((applyCell ps p).1).has = true) ∧
    (ps.str ≠ p → parseFloat p = none →
      applyCell ps p =
        ({ ps with str := p, seen := true, parse := false, dir := DirSame }, true)) ∧
    ((applyCellSeq initPx prices).has = true ↔ ∃ q ∈ prices, parseFloat q ≠ none) := by
  refine ⟨applyCell_has_mono ps p, applyCell_parse_fail ps p, ?_⟩
  have h := applyCellSeq_has_iff prices initPx (by simp [initPx, parseFloat])
  rw [h]
  simp [initPx]

/-- Witness for C6: a cell that has parsed `100` keeps `has_num` through the
unparseable update `n/a`, and the three-string history `100`, `n/a`, `101`
yields `has_num = true` because `100` parsed. -/
theorem C6_has_num_iff_some_parse_witness :
    ((rowEX1.exchanges.head (by decide)).2.has = true →
      ((applyCell (rowEX1.exchanges.head (by decide)).2 (litStr "n/a")).1).has = true) ∧
    ((applyCellSeq initPx [litStr "100", litStr "n/a", litStr "101"]).has = true ↔
      ∃ q ∈ [litStr "100", litStr "n/a", litStr "101"], parseFloat q ≠ none) :=
  ⟨(C6_has_num_iff_some_parse (rowEX1.exchanges.head (by decide)).2 (litStr "n/a")
      [litStr "100", litStr "n/a", litStr "101"]).1,
   (C6_has_num_iff_some_parse (rowEX1.exchanges.head (by decide)).2 (litStr "n/a")
      [litStr "100", litStr "n/a", litStr "101"]).2.2⟩

/-- C7 counterexample: `Snapshot` is a *shallow* copy — the per-exchange
cells are shared with the live board — so the claim that cells observable
through a snapshot are unaffected by later `apply` calls fails: after taking
a snapshot of the board holding `100`, a later apply of `101` changes the
price string observed through the very same snapshot. -/
theorem C7_counterexample_snapshot_shares_cells :
    (snapObserve (snapshotKeys board1) board1 (litStr "BTC") (litStr "EX1")).map
        PxState.str = some (litStr "100") ∧
    (snapObserve (snapshotKeys board1) board1' (litStr "BTC") (litStr "EX1")).map
        PxState.str = some (litStr "101") ∧
    litStr "100" ≠ litStr "101" := by
  refine ⟨?_, ?_, by decide⟩ <;>
    simp [board1, board1', mkTick, litStr, snapObserve, snapshotKeys, boardCell,
      newState, applyBoard, applyCell, aget, aset, normStr, upperStr, upChar, trimStr,
      isSpaceChar, parseFloat, parseUnsigned, digitsVal, isDigitChar, initPx, DirSame,
      DirUp, DirDown]

/-- C7 (amended): the snapshot's *top-level* map is an independent copy —
later `apply` calls never change the snapshot's coin set — but the
per-exchange price cells are shared with the live board, so a cell read
through an old snapshot always yields the live board's current cell rather
than the value at snapshot time. -/
theorem C7_snapshot_top_level_only (s : BoardState) (t : Tick) :
    snapshotKeys ((applyBoard s t).1) = snapshotKeys s ∧
    (∀ coin ex, coin ∈ snapshotKeys s →
      snapObserve (snapshotKeys s) ((applyBoard s t).1) coin ex
        = boardCell ((applyBoard s t).1) coin ex) := by
  refine ⟨applyBoard_keys s t, ?_⟩
  intro coin ex hmem
  rw [snapObserve, if_pos hmem]

/-- Witness for C7 (amended): on the literal board, the coin set survives an
apply and the snapshot read tracks the live board. -/
theorem C7_snapshot_top_level_only_witness :
    (litStr "BTC" ∈ snapshotKeys boardLit1) ∧
    snapshotKeys ((applyBoard boardLit1 (mkTick "EX1" "BTC" "101" 101)).1)
      = snapshotKeys boardLit1 ∧
    snapObserve (snapshotKeys boardLit1)
        ((applyBoard boardLit1 (mkTick "EX1" "BTC" "101" 101)).1)
        (litStr "BTC") (litStr "EX1")
      = boardCell ((applyBoard boardLit1 (mkTick "EX1" "BTC" "101" 101)).1)
        (litStr "BTC") (litStr "EX1") :=
  ⟨by decide,
   (C7_snapshot_top_level_only boardLit1 (mkTick "EX1" "BTC" "101" 101)).1,
   (C7_snapshot_top_level_only boardLit1 (mkTick "EX1" "BTC" "101" 101)).2
     (litStr "BTC") (litStr "EX1") (by decide)⟩

theorem applyDefaults_other_fields (cfg : Config) :
    (applyDefaults cfg).symbols = cfg.symbols ∧
    (applyDefaults cfg).binanceEnabled = cfg.binanceEnabled ∧
    (applyDefaults cfg).binanceWsURL = cfg.binanceWsURL ∧
    (applyDefaults cfg).bybitEnabled = cfg.bybitEnabled ∧
    (applyDefaults cfg).bybitWsURL = cfg.bybitWsURL := by
  unfold applyDefaults
  by_cases h1 : cfg.printEveryMin ≤ 0 <;> by_cases h2 : cfg.deltaThreshold ≤ 0 <;>
    simp [h1, h2]

/-- C9: the post-decode load pipeline (`ApplyDefaults` then `ValidateConfig`)
fails exactly when the normalised coin list is empty or an enabled exchange's
WebSocket URL is empty after trimming; a non-positive `delta_threshold`
(including exactly `0`) is replaced by `5.0` and a non-positive
`print_every_min` by `5` (positive values pass through); on success the
loaded coin list is `NormalizeSymbols` of the input, which is the uppercased,
trimmed input with empties dropped and duplicates removed keeping the first
occurrence (it is duplicate-free, a sublist of the normalised input — hence
in first-occurrence order — and contains exactly the normalised non-empty
tokens). -/
theorem C9_config_load_pipeline (cfg : Config) :
    ((∃ e, loadConfigModel cfg = Except.error e) ↔
      (normalizeSymbols cfg.symbols = [] ∨
       (cfg.binanceEnabled = true ∧ trimStr cfg.binanceWsURL = []) ∨
       (cfg.bybitEnabled = true ∧ trimStr cfg.bybitWsURL = []))) ∧
    (cfg.deltaThreshold ≤ 0 → (applyDefaults cfg).deltaThreshold = 5) ∧
    (0 < cfg.deltaThreshold → (applyDefaults cfg).deltaThreshold = cfg.deltaThreshold) ∧
    (cfg.printEveryMin ≤ 0 → (applyDefaults cfg).printEveryMin = 5) ∧
    (0 < cfg.printEveryMin → (applyDefaults cfg).printEveryMin = cfg.printEveryMin) ∧
    (∀ cfg', loadConfigModel cfg = Except.ok cfg' →
      cfg'.symbols = normalizeSymbols cfg.symbols) ∧
    (normalizeSymbols cfg.symbols).Nodup ∧
    List.Sublist (normalizeSymbols cfg.symbols)
      ((cfg.symbols.map normStr).filter (fun u => !u.isEmpty)) ∧
    (∀ x, x ∈ normalizeSymbols cfg.symbols ↔
      x ∈ (cfg.symbols.map normStr).filter (fun u => !u.isEmpty)) := by
  obtain ⟨hsy, hbe, hbu, hye, hyu⟩ := applyDefaults_other_fields cfg
  refine ⟨?_, ?_, ?_, ?_, ?_, ?_, (nsAux_nodup_notin cfg.symbols []).1,
    nsAux_sublist cfg.symbols [], ?_⟩
  · by_cases h1 : normalizeSymbols cfg.symbols = []
    · simp [loadConfigModel, validateConfig, hsy, h1]
    · by_cases h2 : cfg.binanceEnabled = true ∧ trimStr cfg.binanceWsURL = []
      · simp [loadConfigModel, validateConfig, hsy, hbe, hbu, h1, h2]
      · by_cases h3 : cfg.bybitEnabled = true ∧ trimStr cfg.bybitWsURL = []
        · simp [loadConfigModel, validateConfig, hsy, hbe, hbu, hye, hyu, h1, h2, h3]
        · simp [loadConfigModel, validateConfig, hsy, hbe, hbu, hye, hyu, h1, h2, h3]
  · intro h
    unfold applyDefaults
    by_cases h1 : cfg.printEveryMin ≤ 0 <;> simp [h1, h]
  · intro h
    have hn : ¬cfg.deltaThreshold ≤ 0 := not_le.mpr h
    unfold applyDefaults
    by_cases h1 : cfg.printEveryMin ≤ 0 <;> simp [h1, hn]
  · intro h
    unfold applyDefaults
    by_cases h2 : cfg.deltaThreshold ≤ 0 <;> simp [h, h2]
  · intro h
    have hn : ¬cfg.printEveryMin ≤ 0 := not_le.mpr h
    unfold applyDefaults
    by_cases h2 : cfg.deltaThreshold ≤ 0 <;> simp [hn, h2]
  · intro cfg' hok
    by_cases h1 : normalizeSymbols cfg.symbols = []
    · simp [loadConfigModel, validateConfig, hsy, h1] at hok
    · by_cases h2 : cfg.binanceEnabled = true ∧ trimStr cfg.binanceWsURL = []
      · simp [loadConfigModel, validateConfig, hsy, hbe, hbu, h1, h2] at hok
      · by_cases h3 : cfg.bybitEnabled = true ∧ trimStr cfg.bybitWsURL = []
        · simp [loadConfigModel, validateConfig, hsy, hbe, hbu, hye, hyu, h1, h2, h3] at hok
        · simp only [loadConfigModel, validateConfig, hsy, hbe, hbu, hye, hyu,
            if_neg h1, if_neg h2, if_neg h3] at hok
          injection hok with hh
          rw [← hh]
  · intro x
    rw [normalizeSymbols, nsAux_mem cfg.symbols [] x]
    simp

/-- Witness for C9: a config with threshold `0`, period `0`, duplicate and
unnormalised coins, bybit disabled with an empty URL, loads successfully
with the defaults substituted and the coin list deduplicated in order. -/
theorem C9_config_load_pipeline_witness :
    ¬(∃ e, loadConfigModel
        { printEveryMin := 0, symbols := [litStr " btc ", litStr "BTC", litStr "eth"],
          deltaThreshold := 0, binanceEnabled := true, binanceWsURL := litStr "wss://x",
          bybitEnabled := false, bybitWsURL := [] } = Except.error e) ∧
    (applyDefaults
        { printEveryMin := 0, symbols := [litStr " btc ", litStr "BTC", litStr "eth"],
          deltaThreshold := 0, binanceEnabled := true, binanceWsURL := litStr "wss://x",
          bybitEnabled := false, bybitWsURL := [] }).deltaThreshold = 5 ∧
    (applyDefaults
        { printEveryMin := 0, symbols := [litStr " btc ", litStr "BTC", litStr "eth"],
          deltaThreshold := 0, binanceEnabled := true, binanceWsURL := litStr "wss://x",
          bybitEnabled := false, bybitWsURL := [] }).printEveryMin = 5 := by
  have h := C9_config_load_pipeline
    { printEveryMin := 0, symbols := [litStr " btc ", litStr "BTC", litStr "eth"],
      deltaThreshold := 0, binanceEnabled := true, binanceWsURL := litStr "wss://x",
      bybitEnabled := false, bybitWsURL := [] }
  refine ⟨fun he => ?_, h.2.1 (by norm_num), h.2.2.2.1 (by decide)⟩
  have := h.1.mp he
  revert this
  decide

/-- C2 (code bug): the feed adapters do not convert the wire instrument
identifier back to the coin token.  The OKX per-item step emits
`Symbol = TrimSpace(data.InstID)` (`BTC-USDT-SWAP`), and the Binance step
emits `Symbol = ToUpper(msg.Data.Symbol)` (`BTCUSDT`); the configured
converter would map `BTC-USDT-SWAP` to `BTC`, which is what the spec, the
`Tick` contract of `state.go` (its comment requires the coin name) and the
unused `TickerFeed.Symbol2Coin` helper expect.  Consequently a board
configured with coin `BTC` drops the emitted tick (`Apply` returns `false`
with no cell created), while a tick carrying the converted coin would be
accepted. -/
theorem C2_adapters_emit_raw_instrument :
    (okxItemToTick (litStr "OKX") okxItemBTC 7).map Tick.symbol
      = some (litStr "BTC-USDT-SWAP") ∧
    symbol2Coin okxConverter (litStr "BTC-USDT-SWAP") = litStr "BTC" ∧
    litStr "BTC-USDT-SWAP" ≠ litStr "BTC" ∧
    (binanceMsgToTick (litStr "BINANCE") { s := litStr "BTCUSDT", c := litStr "50000" } 7).map
        Tick.symbol = some (litStr "BTCUSDT") ∧
    (applyBoard (newState [litStr "BTC"])
        { exchange := litStr "OKX", symbol := litStr "BTC-USDT-SWAP",
          priceStr := litStr "50000", priceNum := 50000, ts := 7 }).2 = false ∧
    (applyBoard (newState [litStr "BTC"])
        { exchange := litStr "OKX", symbol := litStr "BTC",
          priceStr := litStr "50000", priceNum := 50000, ts := 7 }).2 = true := by
  refine ⟨by decide, ?_, by decide, by decide, by decide, ?_⟩
  · simp [symbol2Coin, okxConverter, newCommonSymbolConverter, litStr, normStr, upperStr,
      upChar, trimStr, isSpaceChar, replaceAll, List.isPrefixOf]
  · simp [applyBoard, newState, applyCell, litStr, aget, aset, normStr, upperStr, upChar,
      trimStr, isSpaceChar, parseFloat, parseUnsigned, digitsVal, isDigitChar, initPx]

/-- C8: for the converter built from a quote suffix, the round trip
`Symbol2Coin (Coin2Symbol c)` returns the normalised coin for every coin
token that belongs to the configured quote — formalised as: the normalised
suffix occurs nowhere in `normalize(c) ++ suffix` except as the final suffix
(this excludes coins that already carry or overlap the quote suffix, such as
the quote itself); and both operations map the empty string to the empty
string. -/
theorem C8_converter_round_trip (suffix0 coin : Str)
    (H : ∀ i, i < (normStr coin).length →
      ¬ (newCommonSymbolConverter suffix0).suffix <+:
        List.drop i (normStr coin ++ (newCommonSymbolConverter suffix0).suffix)) :
    symbol2Coin (newCommonSymbolConverter suffix0)
        (coin2Symbol (newCommonSymbolConverter suffix0) coin) = normStr coin ∧
    symbol2Coin (newCommonSymbolConverter suffix0) [] = [] ∧
    coin2Symbol (newCommonSymbolConverter suffix0) [] = [] := by
  refine ⟨?_, by simp [symbol2Coin, normStr, trimStr, upperStr],
    by simp [coin2Symbol, normStr, trimStr, upperStr]⟩
  by_cases hu : normStr coin = []
  · rw [coin2Symbol]
    simp only [hu, if_pos rfl]
    simp [symbol2Coin, normStr, trimStr, upperStr, hu]
  · have hp : (newCommonSymbolConverter suffix0).suffix ≠ [] := by
      intro hpe
      have h0 := H 0 (List.length_pos.mpr hu)
      rw [hpe] at h0
      simp at h0
    have hnsfx : ¬ (newCommonSymbolConverter suffix0).suffix <:+ normStr coin :=
      not_suffix_of_no_interior_match _ _ hp H
    have hc2s : coin2Symbol (newCommonSymbolConverter suffix0) coin
        = normStr coin ++ (newCommonSymbolConverter suffix0).suffix := by
      simp only [coin2Symbol]
      rw [if_neg hu, if_neg (by
        rw [List.isSuffixOf_iff_suffix]
        exact hnsfx)]
    rw [hc2s, symbol2Coin]
    have hnorm : normStr (normStr coin ++ (newCommonSymbolConverter suffix0).suffix)
        = normStr coin ++ (newCommonSymbolConverter suffix0).suffix :=
      normStr_append_norm coin suffix0 hu hp
    simp only [hnorm]
    rw [if_neg (by simp [hu]), replaceAll_append_cancel _ _ hp H]

/-- Witness for C8: quote `USDT`, coin `" btc "` — the interior-match
hypothesis holds and the round trip yields the normalised coin `BTC`. -/
theorem C8_converter_round_trip_witness :
    (∀ i, i < (normStr (litStr " btc ")).length →
      ¬ (newCommonSymbolConverter (litStr "USDT")).suffix <+:
        List.drop i (normStr (litStr " btc ") ++
          (newCommonSymbolConverter (litStr "USDT")).suffix)) ∧
    symbol2Coin (newCommonSymbolConverter (litStr "USDT"))
        (coin2Symbol (newCommonSymbolConverter (litStr "USDT")) (litStr " btc "))
      = normStr (litStr " btc ") :=
  ⟨by decide, (C8_converter_round_trip (litStr "USDT") (litStr " btc ") (by decide)).1⟩

end Xarb
